import Mathlib

/-!
Verification of the `tinypipeline` task-orchestration library.

This file gives a shallow embedding of `src/tinypipeline/step.py` and
`src/tinypipeline/pipeline.py` (together with the semantics of the standard
library `graphlib.TopologicalSorter` that `pipeline.py` uses) and proves the
spec's testable properties against it.

Modelling conventions:
* A Python exception is a value of `PyExc`; Python code that may raise is
  embedded as a function into `Except PyExc _`.
* A step's work item (the wrapped zero-argument callable) is referentially
  opaque to the engine, so it is modelled by an identity `id : Nat` (which
  invocation appends to an execution trace) together with its observable
  `outcome` (returns normally, or raises a given exception).
* A value in a step collection is either a `Step` or some non-Step Python
  object (`PyVal.other`), identified by an opaque string.
* A step collection is a Python list, a Python dict (an insertion-ordered
  association list with the keys understood to be distinct), or some other
  object, of which the engine only ever observes its truthiness.
-/

namespace TinyPipeline

/-- Python exceptions raised by the library, distinguished by their Python
type (`TypeError`, `graphlib.CycleError`, `AttributeError`, bare `Exception`)
and carrying the message string. -/
inductive PyExc where
  | typeError (msg : String)
  | cycleError (msg : String)
  | attributeError (msg : String)
  | exc (msg : String)
deriving DecidableEq, Repr

/-- Embedding of `Step` from `src/tinypipeline/step.py`: identity metadata
plus the work item, modelled by its identity `id` and its `outcome`
(`none` = the callable returns; `some e` = the callable raises `e`). -/
structure Step where
  id : Nat
  outcome : Option PyExc
  name : String
  version : String
  description : String
deriving DecidableEq, Repr

/-- Embedding of `Step.run` (`step.py` lines 31-36): invoke the callable,
discard its result, propagate any exception unchanged. The invocation
itself is traced by the caller (`runSteps`). -/
def Step.run (s : Step) : Except PyExc Unit :=
  match s.outcome with
  | none => .ok ()
  | some e => .error e

/-- A Python value appearing inside a step collection: either an actual
`Step` instance or any other object (modelled by an opaque string; the
engine only ever checks `isinstance(s, Step)` on it or crashes accessing
`.name`). -/
inductive PyVal where
  | step (s : Step)
  | other (v : String)
deriving DecidableEq, Repr

/-- Embedding of `isinstance(s, Step)`. -/
def PyVal.isStep : PyVal → Bool
  | .step _ => true
  | .other _ => false

/-- The identity of the work item wrapped by a collection element (0 for a
non-Step, whose work item is never reached). -/
def PyVal.stepId : PyVal → Nat
  | .step s => s.id
  | .other _ => 0

/-- A pipeline's step collection, as returned by the factory function:
a Python list, a Python dict (insertion-ordered key/values pairs), or any
other object.  For a non-list non-dict object the engine observes only its
truthiness before `ordering` raises, so that is all the model records. -/
inductive StepsColl where
  | pylist (xs : List PyVal)
  | pydict (entries : List (PyVal × List PyVal))
  | otherVal (truthy : Bool)
deriving DecidableEq, Repr

/-- Python truthiness of the step collection, as tested by
`if not self.steps` (`pipeline.py` line 117): lists and dicts are truthy
iff non-empty; other objects carry their own truthiness. -/
def StepsColl.pyTruthy : StepsColl → Bool
  | .pylist xs => !xs.isEmpty
  | .pydict es => !es.isEmpty
  | .otherVal t => t

/-- Elements yielded by Python iteration over the step collection
(`for s in self.steps`, `pipeline.py` line 100): the list's items, or the
dict's KEYS (Python dict iteration yields keys).  A non-iterable object
yields nothing here; `_get_steps` raises before ever iterating it. -/
def StepsColl.elems : StepsColl → List PyVal
  | .pylist xs => xs
  | .pydict es => es.map (fun e => e.1)
  | .otherVal _ => []

/-- Embedding of `Pipeline` (`pipeline.py`): identity metadata plus the
step collection.  `stepsColl` is the value the stored factory `_func`
returns; the lazy caching of its materialization is modelled separately
by `PipelineCell` below. -/
structure Pipeline where
  name : String
  version : String
  description : String
  stepsColl : StepsColl
deriving DecidableEq, Repr

/-! ### Embedding of `graphlib.TopologicalSorter`

`Pipeline._get_steps` builds `TopologicalSorter(graph=self.steps)` and takes
`list(ts.static_order())`.  CPython's `graphlib`:
* `__init__` calls `add(node, *predecessors)` for each `(node, predecessors)`
  item of the dict, in dict order.  `add` inserts `node` then each
  predecessor into `_node2info` in first-seen order, adds
  `len(predecessors)` to `node`'s predecessor count, and appends `node`
  to each predecessor's successor list.
* `prepare` seeds the ready list with the zero-count nodes in `_node2info`
  insertion order, and raises `CycleError` iff the graph has a cycle.
* `static_order` then repeatedly yields the ready group and calls
  `done(*group)`, which decrements each done node's successors' counts and
  appends any count that reaches exactly 0 to the ready list.
The functions below reproduce that computation.  Counts are `Int`, as in
Python; the marker values CPython writes into passed-out nodes are omitted
because a passed-out node's count is never consulted again. -/

/-- Insert a node at the back unless already present: `_node2info`
first-seen insertion order. -/
def insertNode (acc : List PyVal) (n : PyVal) : List PyVal :=
  if n ∈ acc then acc else acc ++ [n]

/-- All nodes of the graph — keys and value-list members — in `_node2info`
first-seen order. -/
def nodesOf (entries : List (PyVal × List PyVal)) : List PyVal :=
  entries.foldl (fun acc e => e.2.foldl insertNode (insertNode acc e.1)) []

/-- The predecessor occurrences of `n`: the concatenated value lists of the
entries whose key is `n` (for an actual dict there is at most one). -/
def predsOf (entries : List (PyVal × List PyVal)) (n : PyVal) : List PyVal :=
  ((entries.filter (fun e => e.1 = n)).map (fun e => e.2)).flatten

/-- The initial predecessor count of `n` (`_node2info[n].npredecessors`
after construction). -/
def npredOf (entries : List (PyVal × List PyVal)) (n : PyVal) : Int :=
  (predsOf entries n).length

/-- The successor list of `n` (`_node2info[n].successors`): one occurrence
of key `k` for each occurrence of `n` in `k`'s value list, in entry order. -/
def succsOf (entries : List (PyVal × List PyVal)) (n : PyVal) : List PyVal :=
  ((entries.map (fun e => (e.2.filter (fun v => v = n)).map (fun _ => e.1))).flatten)

/-- Process one done node's successor list: decrement each successor's
count in order, collecting a successor the moment its count reaches
exactly 0 (CPython `done`, inner loop). Returns the new counts and the
newly-ready nodes in append order. -/
def doneList (counts : PyVal → Int) : List PyVal → (PyVal → Int) × List PyVal
  | [] => (counts, [])
  | s :: rest =>
    let c := counts s - 1
    let counts2 := Function.update counts s c
    let r := doneList counts2 rest
    (r.1, (if c = 0 then [s] else []) ++ r.2)

/-- Process a whole ready group with `done(*group)`: each node's successor
list in group order. -/
def doneGroup (succs : PyVal → List PyVal) (counts : PyVal → Int) :
    List PyVal → (PyVal → Int) × List PyVal
  | [] => (counts, [])
  | n :: rest =>
    let r1 := doneList counts (succs n)
    let r2 := doneGroup succs r1.1 rest
    (r2.1, r1.2 ++ r2.2)

/-- The `static_order` loop: while the ready group is non-empty, yield it
and process it with `done`.  `fuel` bounds the number of rounds; every
round emits at least one node and no node is emitted twice, so
`nodesOf entries |>.length + 1` rounds always suffice. -/
def kahnLoop (succs : PyVal → List PyVal) :
    Nat → (PyVal → Int) → List PyVal → List PyVal
  | 0, _, _ => []
  | _ + 1, _, [] => []
  | fuel + 1, counts, r :: rs =>
    let g := doneGroup succs counts (r :: rs)
    r :: rs ++ kahnLoop succs fuel g.1 g.2

/-- Embedding of `list(TopologicalSorter(graph=entries).static_order())`.
CPython's `prepare` raises `CycleError` (before anything is yielded) iff
the graph has a cycle; equivalently — the condition used here — iff the
Kahn process fails to emit every node. -/
def staticOrder (entries : List (PyVal × List PyVal)) :
    Except PyExc (List PyVal) :=
  let ns := nodesOf entries
  let out := kahnLoop (succsOf entries) (ns.length + 1)
    (fun n => npredOf entries n)
    (ns.filter (fun n => npredOf entries n = 0))
  if out.length = ns.length then .ok out
  else .error (.cycleError "nodes are in a cycle")

/-! ### Embedding of `Pipeline._get_steps` and `Pipeline.run` -/

/-- Message of the `TypeError` raised by the `ordering` property
(`pipeline.py` line 68). -/
def orderingErrMsg : String := "Pipeline steps must be in a list or a dict."

/-- Message of the `TypeError` raised by step validation
(`pipeline.py` lines 101-104). -/
def invalidStepMsg : String :=
  "Not a valid step. Consider using the step decorator to create steps for your pipeline."

/-- The order-computing part of `_get_steps` (`pipeline.py` lines 88-98),
including the `ordering` property's shape dispatch: a list is returned
unchanged; a dict is topologically sorted and the result reversed; any
other shape raises `TypeError`. -/
def computeOrder : StepsColl → Except PyExc (List PyVal)
  | .pylist xs => .ok xs
  | .pydict entries => (staticOrder entries).map List.reverse
  | .otherVal _ => .error (.typeError orderingErrMsg)

/-- Embedding of `Pipeline._get_steps` (`pipeline.py` lines 78-106):
compute the order (any exception raised there propagates), then validate
`all(isinstance(s, Step) for s in self.steps)` over the ORIGINAL
collection (for a dict: its keys). -/
def getSteps (coll : StepsColl) : Except PyExc (List PyVal) :=
  match computeOrder coll with
  | .error e => .error e
  | .ok ord =>
    if coll.elems.all PyVal.isStep then .ok ord
    else .error (.typeError invalidStepMsg)

/-- The step-execution loop of `Pipeline.run` (`pipeline.py` lines
135-147).  For each element: accessing `step.name` on a non-Step raises
`AttributeError` (the exact CPython message depends on the value's type,
which the model does not track); for a `Step`, the work item is invoked —
appending its id to the trace — and any exception it raises is re-raised
unchanged, halting the loop. -/
def runSteps : List PyVal → List Nat → Except PyExc Unit × List Nat
  | [], tr => (.ok (), tr)
  | .other _ :: _, tr => (.error (.attributeError "object has no attribute name"), tr)
  | .step s :: rest, tr =>
    let tr2 := tr ++ [s.id]
    match s.run with
    | .ok _ => runSteps rest tr2
    | .error e => (.error e, tr2)

/-- Embedding of `Pipeline.run` (`pipeline.py` lines 108-147), returning
the outcome together with the trace of work-item invocations.  An empty
(falsy) step collection raises a bare `Exception` naming the pipeline;
errors from `_get_steps` (including `CycleError`, which line 128 catches,
reports and re-raises) propagate with an empty trace. -/
def Pipeline.run (p : Pipeline) : Except PyExc Unit × List Nat :=
  if !p.stepsColl.pyTruthy then
    (.error (.exc ("Pipeline " ++ p.name ++ " has no steps to run.")), [])
  else
    match getSteps p.stepsColl with
    | .error e => (.error e, [])
    | .ok order => runSteps order []

/-! ### Embedding of the `pipeline` decorator (`pipeline.py` lines 150-191)

`pipeline(name=..., version=..., description=...)` returns `decorator`;
`decorator(arg)` performs no check at all and returns `wrapper`; only
calling `wrapper()` checks `isinstance(func, Callable)` and raises
`TypeError` with the argument's runtime type, otherwise builds the
`Pipeline`.  The argument is modelled by what the engine observes of it:
either it is invocable (in which case only the step collection it returns
matters) or it is not (in which case only its runtime type name matters). -/

/-- Identity metadata handed to the `pipeline` decorator factory. -/
structure PipelineMeta where
  name : String
  version : String
  description : String
deriving DecidableEq, Repr

/-- The argument the decorator is applied to. -/
inductive FactoryArg where
  | callable (result : StepsColl)
  | notCallable (typeName : String)
deriving DecidableEq, Repr

/-- Applying the decorator (`decorator(func)`, lines 169 and 189): it
builds and returns `wrapper` unconditionally — no validation happens at
decoration time, so this never raises. -/
def pipelineDecorator (_ : PipelineMeta) (arg : FactoryArg) :
    Except PyExc FactoryArg := .ok arg

/-- Calling the returned wrapper (`wrapper()`, lines 171-187): a
non-callable argument raises `TypeError` reporting its runtime type;
otherwise the `Pipeline` object is built (the factory itself is still not
invoked — that happens lazily at the first `steps` access). -/
def pipelineWrapperCall (m : PipelineMeta) (arg : FactoryArg) :
    Except PyExc Pipeline :=
  match arg with
  | .notCallable t =>
    .error (.typeError ("The pipeline decorator only accepts functions. Passed " ++ t))
  | .callable res =>
    .ok { name := m.name, version := m.version, description := m.description,
          stepsColl := res }

/-! ### Embedding of the `steps` cached property (`pipeline.py` lines 40-51)

`functools.cached_property` computes `self._func()` on first access and
stores the result in the instance dictionary; later accesses return the
stored value without calling `_func`.  The cell below records the cache
and the number of times the factory has been called. -/

/-- The mutable state of one `Pipeline` instance relevant to caching. -/
structure PipelineCell where
  stepsCache : Option StepsColl
  funcCalls : Nat
deriving DecidableEq, Repr

/-- A fresh pipeline: nothing cached, factory never called. -/
def PipelineCell.init : PipelineCell := { stepsCache := none, funcCalls := 0 }

/-- One access to the `steps` cached property: on a miss, call the factory
(whose return value is `factoryResult`), cache it and count the call; on a
hit, return the cache untouched. -/
def stepsAccess (factoryResult : StepsColl) (st : PipelineCell) :
    StepsColl × PipelineCell :=
  match st.stepsCache with
  | some v => (v, st)
  | none =>
    (factoryResult,
      { stepsCache := some factoryResult, funcCalls := st.funcCalls + 1 })

/-- State after `n` consecutive accesses to `steps` (each access to
`steps` or `run` performs at least one such access). -/
def accessIter (factoryResult : StepsColl) : Nat → PipelineCell → PipelineCell
  | 0, st => st
  | n + 1, st => accessIter factoryResult n (stepsAccess factoryResult st).2

/-! ### Concrete fixtures, mirroring the repository's test pipelines -/

/-- A step whose work item returns normally, with identity `i`. -/
def mkStep (i : Nat) (nm : String) : Step :=
  { id := i, outcome := none, name := nm, version := "1.0.0", description := nm }

/-- A step whose work item raises `e`, with identity `i`. -/
def mkFailStep (i : Nat) (nm : String) (e : PyExc) : Step :=
  { id := i, outcome := some e, name := nm, version := "1.0.0", description := nm }

def stepOne : PyVal := .step (mkStep 1 "step_one")

def stepTwo : PyVal := .step (mkStep 2 "step_two")

def stepThree : PyVal := .step (mkStep 3 "step_three")

def stepFour : PyVal := .step (mkStep 4 "step_four")

def stepFive : PyVal := .step (mkStep 5 "step_five")

/-- The dependency mapping of `test_pipeline_completion_with_dict_ordering`:
`{step_five: [step_two], step_two: [step_three],
step_three: [step_four, step_one], step_four: [step_one]}`. -/
def dictEntries : List (PyVal × List PyVal) :=
  [(stepFive, [stepTwo]), (stepTwo, [stepThree]),
    (stepThree, [stepFour, stepOne]), (stepFour, [stepOne])]

/-- A minimal one-edge mapping: `step_one`'s value collection holds
`step_two`. -/
def edgeEntries : List (PyVal × List PyVal) := [(stepOne, [stepTwo])]

def edgePipeline : Pipeline :=
  { name := "test_pipeline", version := "1.0.0", description := "Test pipeline",
    stepsColl := .pydict edgeEntries }

/-- The pipeline of `test_pipeline_failure_invalid_step`: its factory
returns `["step_one"]`, a list holding a plain string. -/
def invalidPipeline : Pipeline :=
  { name := "test_pipeline", version := "1.0.0", description := "Test pipeline",
    stepsColl := .pylist [.other "step_one"] }

/-- A two-step cyclic mapping: each step lists the other. -/
def cyclicEntries : List (PyVal × List PyVal) :=
  [(stepOne, [stepTwo]), (stepTwo, [stepOne])]

def cyclicPipeline : Pipeline :=
  { name := "test_pipeline", version := "1.0.0", description := "Test pipeline",
    stepsColl := .pydict cyclicEntries }

/-- The pipeline of `test_pipeline_failure_no_steps_to_run`: its factory
returns `[]`. -/
def emptyPipeline : Pipeline :=
  { name := "test_pipeline", version := "1.0.0", description := "Test pipeline",
    stepsColl := .pylist [] }

/-- The pipeline of `test_pipeline_failure_exception_in_step`: three
sequential steps whose middle work item raises. -/
def failMidPipeline : Pipeline :=
  { name := "test_pipeline", version := "1.0.0", description := "Test pipeline",
    stepsColl := .pylist [.step (mkStep 1 "step_one"),
      .step (mkFailStep 2 "step_two" (.exc "Something went wrong")),
      .step (mkStep 3 "step_three")] }

/-- A two-step sequential pipeline whose steps both succeed. -/
def seqSteps : List Step := [mkStep 1 "step_one", mkStep 2 "step_two"]

def seqPipeline : Pipeline :=
  { name := "test_pipeline", version := "1.0.0", description := "Test pipeline",
    stepsColl := .pylist (seqSteps.map PyVal.step) }

/-- A two-step sequential pipeline whose FIRST step's work item raises. -/
def failFirstPipeline : Pipeline :=
  { name := "test_pipeline", version := "1.0.0", description := "Test pipeline",
    stepsColl := .pylist [.step (mkFailStep 1 "step_one" (.exc "boom")),
      .step (mkStep 2 "step_two")] }

/-- A mapping in which `step_four` appears in two different value
collections and `step_four`, `step_five` are never keys. -/
def sharedDepEntries : List (PyVal × List PyVal) :=
  [(stepOne, [stepFour, stepFive]), (stepTwo, [stepFour])]

/-- Identity metadata handed to `pipeline(...)` in the tests. -/
def testMeta : PipelineMeta :=
  { name := "test_pipeline", version := "1.0.0", description := "Test pipeline" }

/-! ### Arithmetic bookkeeping for the Kahn process -/

/-- The predecessor count of `n` that remains once every occurrence of a
member of `E` in `n`'s predecessor list has been decremented. -/
def remCount (entries : List (PyVal × List PyVal)) (E : List PyVal) (n : PyVal) : Int :=
  ((predsOf entries n).length : Int) -
    ((predsOf entries n).countP (fun v => decide (v ∈ E)) : Int)

/-- Every emitted node's predecessors were emitted strictly earlier. -/
def histOk (entries : List (PyVal × List PyVal)) (E : List PyVal) : Prop :=
  ∀ l1 A l2, E = l1 ++ A :: l2 → ∀ B ∈ predsOf entries A, B ∈ l1

/-- The emission list is duplicate-free, contains only graph nodes, and
lists every node after all of its predecessors. -/
def GoodOut (entries : List (PyVal × List PyVal)) (out : List PyVal) : Prop :=
  out.Nodup ∧ (∀ n ∈ out, n ∈ nodesOf entries) ∧ histOk entries out

/-- The dependency graph of the mapping contains a cycle: a non-trivial
edge chain that returns to its starting node (each edge goes from a key to
a member of its value list). -/
def CycleIn (entries : List (PyVal × List PyVal)) : Prop :=
  ∃ c0 cs, cs ≠ [] ∧ List.Chain (fun a b => b ∈ predsOf entries a) c0 cs ∧
    (c0 :: cs).getLast (List.cons_ne_nil c0 cs) = c0

theorem doneList_counts (ss : List PyVal) (counts : PyVal → Int) (n : PyVal) :
    (doneList counts ss).1 n = counts n - (ss.count n : Int) := by
  induction ss generalizing counts with
  | nil => simp [doneList]
  | cons s rest ih =>
    simp only [doneList]
    rw [ih]
    simp only [Function.update_apply, List.count_cons, beq_iff_eq]
    by_cases h : n = s
    · subst h
      simp only [if_pos rfl]
      push_cast
      omega
    · rw [if_neg h, if_neg (fun hh => h hh.symm)]
      push_cast
      omega

theorem doneList_ready_count (ss : List PyVal) (counts : PyVal → Int) (n : PyVal) :
    ((doneList counts ss).2.count n : Int) =
      if 1 ≤ counts n ∧ counts n ≤ (ss.count n : Int) then 1 else 0 := by
  induction ss generalizing counts with
  | nil =>
    simp only [doneList, List.count_nil, List.count_nil, Nat.cast_zero]
    rw [if_neg (by omega)]
  | cons s rest ih =>
    simp only [doneList, List.count_append]
    push_cast
    rw [ih]
    have hupd : Function.update counts s (counts s - 1) n =
        if n = s then counts s - 1 else counts n := Function.update_apply ..
    have hc1 : (((if counts s - 1 = 0 then [s] else []).count n : Nat) : Int) =
        if counts s - 1 = 0 ∧ n = s then 1 else 0 := by
      by_cases h0 : counts s - 1 = 0 <;> by_cases hns : n = s <;>
        simp [h0, hns, List.count_cons]
    rw [hupd, hc1]
    have hcc : ((((s :: rest).count n : Nat)) : Int) =
        (rest.count n : Int) + if n = s then 1 else 0 := by
      by_cases hns : n = s <;> simp [hns, List.count_cons]
    rw [hcc]
    by_cases hns : n = s
    · subst hns
      simp only [if_pos rfl, eq_self_iff_true, and_true]
      split_ifs <;> omega
    · simp only [if_neg hns, hns, and_false, if_false]
      split_ifs <;> omega

theorem doneGroup_counts (G : List PyVal) (succs : PyVal → List PyVal)
    (counts : PyVal → Int) (n : PyVal) :
    (doneGroup succs counts G).1 n =
      counts n - (G.map (fun m => ((succs m).count n : Int))).sum := by
  induction G generalizing counts with
  | nil => simp [doneGroup]
  | cons m G' ih =>
    simp only [doneGroup, List.map_cons, List.sum_cons]
    rw [ih, doneList_counts]
    omega

theorem doneGroup_ready_count (G : List PyVal) (succs : PyVal → List PyVal)
    (counts : PyVal → Int) (n : PyVal) :
    ((doneGroup succs counts G).2.count n : Int) =
      if 1 ≤ counts n ∧
          counts n ≤ (G.map (fun m => ((succs m).count n : Int))).sum then 1
      else 0 := by
  induction G generalizing counts with
  | nil =>
    simp only [doneGroup, List.count_nil, Nat.cast_zero, List.map_nil,
      List.sum_nil]
    rw [if_neg (by omega)]
  | cons m G' ih =>
    simp only [doneGroup, List.count_append, List.map_cons, List.sum_cons]
    push_cast
    rw [ih, doneList_ready_count, doneList_counts]
    have hnn : (0 : Int) ≤ ((succs m).count n : Int) := by positivity
    have hnn2 : (0 : Int) ≤ (G'.map (fun k => ((succs k).count n : Int))).sum := by
      apply List.sum_nonneg
      intro x hx
      obtain ⟨k, _, rfl⟩ := List.mem_map.mp hx
      positivity
    split_ifs <;> omega

/-! ### Counting lemmas relating `succsOf`, `predsOf` and membership -/

theorem count_succsOf (entries : List (PyVal × List PyVal)) (m n : PyVal) :
    (succsOf entries m).count n = (predsOf entries n).count m := by
  induction entries with
  | nil => simp [succsOf, predsOf]
  | cons e rest ih =>
    have hs : succsOf (e :: rest) m =
        ((e.2.filter (fun v => v = m)).map (fun _ => e.1)) ++ succsOf rest m := by
      simp [succsOf]
    have hp : predsOf (e :: rest) n =
        (if e.1 = n then e.2 else []) ++ predsOf rest n := by
      by_cases h : e.1 = n <;> simp [predsOf, List.filter_cons, h]
    rw [hs, hp, List.count_append, List.count_append, ih]
    congr 1
    by_cases h : e.1 = n
    · rw [if_pos h]
      have h1 : ((e.2.filter (fun v => v = m)).map (fun _ => e.1)).count n =
          ((e.2.filter (fun v => v = m)).map (fun _ => e.1)).length := by
        rw [List.count_eq_countP, List.countP_eq_length]
        intro a ha
        obtain ⟨b, _, rfl⟩ := List.mem_map.mp ha
        simp [h]
      rw [h1, List.length_map, List.count_eq_countP, List.countP_eq_length_filter]
      congr 1
    · rw [if_neg h]
      simp only [List.count_nil]
      rw [List.count_eq_zero]
      intro hmem
      obtain ⟨b, _, rfl⟩ := List.mem_map.mp hmem
      exact h rfl

theorem countP_mem_cons (l : List PyVal) (m : PyVal) (G : List PyVal) (hm : m ∉ G) :
    l.countP (fun x => decide (x ∈ m :: G)) =
      l.count m + l.countP (fun x => decide (x ∈ G)) := by
  induction l with
  | nil => simp
  | cons x l' ih =>
    rw [List.countP_cons, List.countP_cons, List.count_cons, ih]
    by_cases hx : x = m
    · subst hx
      have hxg : x ∉ G := hm
      simp only [List.mem_cons, hxg, or_false, beq_self_eq_true]
      simp
      omega
    · by_cases hxg : x ∈ G <;>
        simp only [List.mem_cons, hx, hxg, or_false, or_true, false_or,
          decide_True, decide_False, beq_iff_eq, if_pos, if_neg] <;>
        simp [hx] <;> omega

theorem sum_count_int (G : List PyVal) (l : List PyVal) (hG : G.Nodup) :
    (G.map (fun m => ((l.count m : Nat) : Int))).sum =
      ((l.countP (fun x => decide (x ∈ G)) : Nat) : Int) := by
  induction G with
  | nil =>
    simp only [List.map_nil, List.sum_nil]
    have h0 : l.countP (fun x => decide (x ∈ ([] : List PyVal))) = 0 := by
      rw [List.countP_eq_length_filter]
      simp
    rw [h0]
    simp
  | cons m G' ih =>
    have hm : m ∉ G' := (List.nodup_cons.mp hG).1
    have hG' : G'.Nodup := (List.nodup_cons.mp hG).2
    simp only [List.map_cons, List.sum_cons]
    rw [ih hG', countP_mem_cons l m G' hm]
    push_cast
    omega

theorem countP_mem_append (l E R : List PyVal) (hdisj : List.Disjoint E R) :
    l.countP (fun x => decide (x ∈ E ++ R)) =
      l.countP (fun x => decide (x ∈ E)) + l.countP (fun x => decide (x ∈ R)) := by
  induction l with
  | nil => simp
  | cons x l' ih =>
    simp only [List.countP_cons, ih]
    by_cases hE : x ∈ E <;> by_cases hR : x ∈ R
    · exact absurd hR (hdisj hE)
    · simp [hE, hR]; omega
    · simp [hE, hR]; omega
    · simp [hE, hR]

theorem countP_eq_length_mem (l E : List PyVal)
    (h : l.countP (fun x => decide (x ∈ E)) = l.length) :
    ∀ v ∈ l, v ∈ E := by
  intro v hv
  have := List.countP_eq_length.mp h v hv
  simpa using this

/-! ### Properties of `nodesOf` and `predsOf` -/

theorem mem_insertNode (acc : List PyVal) (n x : PyVal) :
    x ∈ insertNode acc n ↔ x ∈ acc ∨ x = n := by
  unfold insertNode
  split
  · rename_i h
    constructor
    · exact Or.inl
    · rintro (hx | rfl)
      · exact hx
      · exact h
  · simp

theorem insertNode_nodup (acc : List PyVal) (n : PyVal) (h : acc.Nodup) :
    (insertNode acc n).Nodup := by
  unfold insertNode
  split
  · exact h
  · rename_i hn
    apply List.Nodup.append h (List.nodup_singleton n)
    intro a ha hb
    rw [List.mem_singleton] at hb
    subst hb
    exact hn ha

theorem foldlInsert_nodup (l acc : List PyVal) (h : acc.Nodup) :
    (l.foldl insertNode acc).Nodup := by
  induction l generalizing acc with
  | nil => exact h
  | cons a l' ih => exact ih _ (insertNode_nodup _ _ h)

theorem mem_foldlInsert (l acc : List PyVal) (x : PyVal) :
    x ∈ l.foldl insertNode acc ↔ x ∈ acc ∨ x ∈ l := by
  induction l generalizing acc with
  | nil => simp
  | cons a l' ih =>
    simp only [List.foldl_cons, ih, mem_insertNode, List.mem_cons]
    tauto

theorem nodesOf_nodup (entries : List (PyVal × List PyVal)) :
    (nodesOf entries).Nodup := by
  unfold nodesOf
  suffices h : ∀ acc : List PyVal, acc.Nodup →
      (entries.foldl (fun acc e => e.2.foldl insertNode (insertNode acc e.1)) acc).Nodup by
    exact h [] List.nodup_nil
  induction entries with
  | nil => intro acc h; exact h
  | cons e rest ih =>
    intro acc h
    exact ih _ (foldlInsert_nodup _ _ (insertNode_nodup _ _ h))

theorem mem_nodesOf (entries : List (PyVal × List PyVal)) (x : PyVal) :
    x ∈ nodesOf entries ↔ ∃ e ∈ entries, x = e.1 ∨ x ∈ e.2 := by
  unfold nodesOf
  suffices h : ∀ acc : List PyVal,
      (x ∈ entries.foldl (fun acc e => e.2.foldl insertNode (insertNode acc e.1)) acc ↔
        x ∈ acc ∨ ∃ e ∈ entries, x = e.1 ∨ x ∈ e.2) by
    simpa using h []
  induction entries with
  | nil => intro acc; simp
  | cons e rest ih =>
    intro acc
    simp only [List.foldl_cons, ih, mem_foldlInsert, mem_insertNode, List.mem_cons]
    constructor
    · rintro (((h | h) | h) | ⟨f, hf, h⟩)
      · exact Or.inl h
      · exact Or.inr ⟨e, Or.inl rfl, Or.inl h⟩
      · exact Or.inr ⟨e, Or.inl rfl, Or.inr h⟩
      · exact Or.inr ⟨f, Or.inr hf, h⟩
    · rintro (h | ⟨f, (rfl | hf), h⟩)
      · exact Or.inl (Or.inl (Or.inl h))
      · rcases h with h | h
        · exact Or.inl (Or.inl (Or.inr h))
        · exact Or.inl (Or.inr h)
      · exact Or.inr ⟨f, hf, h⟩

theorem mem_predsOf (entries : List (PyVal × List PyVal)) (a b : PyVal) :
    b ∈ predsOf entries a ↔ ∃ e ∈ entries, e.1 = a ∧ b ∈ e.2 := by
  unfold predsOf
  simp only [List.mem_flatten, List.mem_map, List.mem_filter, decide_eq_true_eq]
  constructor
  · rintro ⟨l, ⟨e, ⟨he, ha⟩, rfl⟩, hb⟩
    exact ⟨e, he, ha, hb⟩
  · rintro ⟨e, he, ha, hb⟩
    exact ⟨e.2, ⟨e, ⟨he, ha⟩, rfl⟩, hb⟩

theorem edge_mem_nodesOf (entries : List (PyVal × List PyVal)) (a b : PyVal)
    (h : b ∈ predsOf entries a) :
    a ∈ nodesOf entries ∧ b ∈ nodesOf entries := by
  obtain ⟨e, he, ha, hb⟩ := (mem_predsOf entries a b).mp h
  exact ⟨(mem_nodesOf entries a).mpr ⟨e, he, Or.inl ha.symm⟩,
    (mem_nodesOf entries b).mpr ⟨e, he, Or.inr hb⟩⟩

theorem preds_ne_nil_mem_nodesOf (entries : List (PyVal × List PyVal)) (n : PyVal)
    (h : predsOf entries n ≠ []) : n ∈ nodesOf entries := by
  obtain ⟨b, hb⟩ := List.exists_mem_of_ne_nil _ h
  exact (edge_mem_nodesOf entries n b hb).1

/-! ### Soundness of the Kahn process -/

theorem remCount_nonneg (entries : List (PyVal × List PyVal)) (E : List PyVal)
    (n : PyVal) : 0 ≤ remCount entries E n := by
  unfold remCount
  have := List.countP_le_length (p := fun v => decide (v ∈ E)) (l := predsOf entries n)
  omega

theorem remCount_zero_of_subset (entries : List (PyVal × List PyVal))
    (E : List PyVal) (n : PyVal) (h : ∀ v ∈ predsOf entries n, v ∈ E) :
    remCount entries E n = 0 := by
  unfold remCount
  have hcp : (predsOf entries n).countP (fun v => decide (v ∈ E)) =
      (predsOf entries n).length :=
    List.countP_eq_length.mpr (fun a ha => by simpa using h a ha)
  omega

theorem remCount_zero_subset (entries : List (PyVal × List PyVal))
    (E : List PyVal) (n : PyVal) (h : remCount entries E n = 0) :
    ∀ v ∈ predsOf entries n, v ∈ E := by
  unfold remCount at h
  have hle := List.countP_le_length (p := fun v => decide (v ∈ E))
    (l := predsOf entries n)
  exact countP_eq_length_mem _ _ (by omega)

theorem kahnLoop_nil (succs : PyVal → List PyVal) (fuel : Nat)
    (counts : PyVal → Int) : kahnLoop succs fuel counts [] = [] := by
  cases fuel <;> rfl

theorem kahnLoop_cons (succs : PyVal → List PyVal) (fuel : Nat)
    (counts : PyVal → Int) (r : PyVal) (rs : List PyVal) :
    kahnLoop succs (fuel + 1) counts (r :: rs) =
      (r :: rs) ++ kahnLoop succs fuel
        (doneGroup succs counts (r :: rs)).1
        (doneGroup succs counts (r :: rs)).2 := rfl

theorem kahnLoop_good (entries : List (PyVal × List PyVal)) (fuel : Nat) :
    ∀ (E : List PyVal) (counts : PyVal → Int) (ready : List PyVal),
      E.Nodup → ready.Nodup → List.Disjoint E ready →
      (∀ n, counts n = remCount entries E n) →
      (∀ n ∈ ready, counts n = 0) →
      (∀ n ∈ ready, n ∈ nodesOf entries) →
      (∀ n ∈ E, n ∈ nodesOf entries) →
      histOk entries E →
      GoodOut entries (E ++ kahnLoop (succsOf entries) fuel counts ready) := by
  induction fuel with
  | zero =>
    intro E counts ready hE hR hdisj hc h0 hRsub hEsub hh
    rw [show kahnLoop (succsOf entries) 0 counts ready = [] from rfl,
      List.append_nil]
    exact ⟨hE, hEsub, hh⟩
  | succ fuel ih =>
    intro E counts ready hE hR hdisj hc h0 hRsub hEsub hh
    cases ready with
    | nil =>
      rw [kahnLoop_nil, List.append_nil]
      exact ⟨hE, hEsub, hh⟩
    | cons r rs =>
      have hRpreds : ∀ A ∈ r :: rs, ∀ B ∈ predsOf entries A, B ∈ E := by
        intro A hA B hB
        have hz := h0 A hA
        rw [hc A] at hz
        exact remCount_zero_subset entries E A hz B hB
      have hEzero : ∀ n ∈ E, counts n = 0 := by
        intro n hn
        obtain ⟨s, t, hst⟩ := List.append_of_mem hn
        rw [hc n]
        apply remCount_zero_of_subset
        intro v hv
        have hvs : v ∈ s := hh s n t hst v hv
        rw [hst]
        exact List.mem_append_left _ hvs
      -- facts about the processed group
      have hcond : ∀ a, a ∈ (doneGroup (succsOf entries) counts (r :: rs)).2 →
          1 ≤ counts a ∧ counts a ≤
            ((r :: rs).map (fun m => (((succsOf entries m).count a : Nat) : Int))).sum := by
        intro a ha
        have hcnt := doneGroup_ready_count (r :: rs) (succsOf entries) counts a
        have hpos : 0 < (doneGroup (succsOf entries) counts (r :: rs)).2.count a :=
          List.count_pos_iff.mpr ha
        split_ifs at hcnt with hcd
        · exact hcd
        · exfalso
          omega
      have hsum : ∀ a,
          ((r :: rs).map (fun m => (((succsOf entries m).count a : Nat) : Int))).sum =
            (((predsOf entries a).countP (fun x => decide (x ∈ r :: rs)) : Nat) : Int) := by
        intro a
        have hmapeq : ((r :: rs).map (fun m => (((succsOf entries m).count a : Nat) : Int))) =
            ((r :: rs).map (fun m => (((predsOf entries a).count m : Nat) : Int))) :=
          List.map_congr_left (fun m _ => by rw [count_succsOf])
        rw [hmapeq, sum_count_int _ _ hR]
      have hc2 : ∀ n, (doneGroup (succsOf entries) counts (r :: rs)).1 n =
          remCount entries (E ++ (r :: rs)) n := by
        intro n
        rw [doneGroup_counts, hsum n, hc n]
        unfold remCount
        rw [countP_mem_append _ _ _ hdisj]
        push_cast
        omega
      have hnodup2 : (doneGroup (succsOf entries) counts (r :: rs)).2.Nodup := by
        rw [List.nodup_iff_count_le_one]
        intro a
        have hcnt := doneGroup_ready_count (r :: rs) (succsOf entries) counts a
        split_ifs at hcnt <;> omega
      have hdisj2 : List.Disjoint (E ++ (r :: rs))
          (doneGroup (succsOf entries) counts (r :: rs)).2 := by
        intro a haE hag
        have h1 := (hcond a hag).1
        rcases List.mem_append.mp haE with hmem | hmem
        · rw [hEzero a hmem] at h1
          omega
        · rw [h0 a hmem] at h1
          omega
      have h02 : ∀ n ∈ (doneGroup (succsOf entries) counts (r :: rs)).2,
          (doneGroup (succsOf entries) counts (r :: rs)).1 n = 0 := by
        intro n hn
        obtain ⟨h1, h2⟩ := hcond n hn
        have h3 := doneGroup_counts (r :: rs) (succsOf entries) counts n
        have h4 := hc2 n
        have h5 := remCount_nonneg entries (E ++ (r :: rs)) n
        omega
      have hRsub2 : ∀ n ∈ (doneGroup (succsOf entries) counts (r :: rs)).2,
          n ∈ nodesOf entries := by
        intro n hn
        have h1 := (hcond n hn).1
        rw [hc n] at h1
        apply preds_ne_nil_mem_nodesOf
        intro hnil
        unfold remCount at h1
        rw [hnil] at h1
        simp at h1
      have hh2 : histOk entries (E ++ (r :: rs)) := by
        intro l1 A l2 heq B hB
        rcases List.append_eq_append_iff.mp heq with ⟨a', hl1, hR'⟩ | ⟨c', hE', hd⟩
        · have hA : A ∈ r :: rs := by
            rw [hR']
            exact List.mem_append_right _ (List.mem_cons_self _ _)
          have hBE := hRpreds A hA B hB
          rw [hl1]
          exact List.mem_append_left _ hBE
        · cases c' with
          | nil =>
            rw [List.nil_append] at hd
            have hA : A ∈ r :: rs := by
              rw [← hd]
              exact List.mem_cons_self _ _
            have hBE := hRpreds A hA B hB
            rw [List.append_nil] at hE'
            rw [← hE']
            exact hBE
          | cons A' c'' =>
            rw [List.cons_append] at hd
            have hA' : A = A' := (List.cons.injEq _ _ _ _ ▸ hd).1
            have hE'' : E = l1 ++ A :: c'' := by
              rw [hE', hA']
            exact hh l1 A c'' hE'' B hB
      rw [kahnLoop_cons, ← List.append_assoc]
      apply ih (E ++ (r :: rs)) _ _
        (List.Nodup.append hE hR hdisj) hnodup2 hdisj2 hc2 h02 hRsub2 ?_ hh2
      intro n hn
      rcases List.mem_append.mp hn with h | h
      · exact hEsub n h
      · exact hRsub n h

theorem countP_mem_nil (l : List PyVal) :
    l.countP (fun x => decide (x ∈ ([] : List PyVal))) = 0 := by
  rw [List.countP_eq_length_filter]
  simp

theorem staticOrder_good (entries : List (PyVal × List PyVal)) (out : List PyVal)
    (h : staticOrder entries = .ok out) :
    GoodOut entries out ∧ out.length = (nodesOf entries).length := by
  simp only [staticOrder] at h
  split_ifs at h with hlen
  · rw [Except.ok.injEq] at h
    subst h
    refine ⟨?_, hlen⟩
    have hmain := kahnLoop_good entries ((nodesOf entries).length + 1) []
      (fun n => npredOf entries n)
      ((nodesOf entries).filter (fun n => npredOf entries n = 0))
      List.nodup_nil
      (List.Nodup.filter _ (nodesOf_nodup entries))
      (by intro a ha _; simp at ha)
      (by
        intro n
        unfold npredOf remCount
        rw [countP_mem_nil]
        simp)
      (by
        intro n hn
        have := List.mem_filter.mp hn
        simpa using this.2)
      (by
        intro n hn
        exact List.mem_of_mem_filter hn)
      (by intro n hn; simp at hn)
      (by
        intro l1 A l2 heq
        exact absurd heq.symm (by simp))
    simpa using hmain

theorem staticOrder_perm (entries : List (PyVal × List PyVal)) (out : List PyVal)
    (h : staticOrder entries = .ok out) : out.Perm (nodesOf entries) := by
  obtain ⟨⟨hnd, hsub, _⟩, hlen⟩ := staticOrder_good entries out h
  have hsp : out.Subperm (nodesOf entries) :=
    List.subperm_of_subset hnd (fun a ha => hsub a ha)
  exact hsp.perm_of_length_le (le_of_eq hlen.symm)

theorem indexOf_mem_left_lt {α : Type} [DecidableEq α] (l1 l2 : List α) (a b : α)
    (hnd : (l1 ++ a :: l2).Nodup) (hb : b ∈ l1) :
    (l1 ++ a :: l2).indexOf b < (l1 ++ a :: l2).indexOf a := by
  have hna : a ∉ l1 := by
    rcases List.nodup_append.mp hnd with ⟨_, _, hdisj⟩
    intro ha
    exact hdisj ha (List.mem_cons_self _ _)
  rw [List.indexOf_append_of_mem hb, List.indexOf_append_of_not_mem hna,
    List.indexOf_cons_self]
  have := List.indexOf_lt_length.mpr hb
  omega

theorem indexOf_mem_right_lt {α : Type} [DecidableEq α] (l1 l2 : List α) (a b : α)
    (hnd : (l1 ++ a :: l2).Nodup) (hb : b ∈ l2) :
    (l1 ++ a :: l2).indexOf a < (l1 ++ a :: l2).indexOf b := by
  rcases List.nodup_append.mp hnd with ⟨_, hnd2, hdisj⟩
  have hna : a ∉ l1 := fun ha => hdisj ha (List.mem_cons_self _ _)
  have hnb : b ∉ l1 := fun hbl => hdisj hbl (List.mem_cons_of_mem _ hb)
  have hba : b ≠ a := by
    intro hba
    subst hba
    exact (List.nodup_cons.mp hnd2).1 hb
  rw [List.indexOf_append_of_not_mem hna, List.indexOf_append_of_not_mem hnb,
    List.indexOf_cons_self, List.indexOf_cons_ne _ (fun h => hba h.symm)]
  omega

theorem staticOrder_index_lt (entries : List (PyVal × List PyVal))
    (out : List PyVal) (A B : PyVal) (h : staticOrder entries = .ok out)
    (hedge : B ∈ predsOf entries A) : out.indexOf B < out.indexOf A := by
  obtain ⟨⟨hnd, _, hhist⟩, _⟩ := staticOrder_good entries out h
  have hperm := staticOrder_perm entries out h
  have hAout : A ∈ out :=
    hperm.mem_iff.mpr (edge_mem_nodesOf entries A B hedge).1
  obtain ⟨l1, l2, hsplit⟩ := List.append_of_mem hAout
  have hB1 : B ∈ l1 := hhist l1 A l2 hsplit B hedge
  rw [hsplit] at hnd ⊢
  exact indexOf_mem_left_lt l1 l2 A B hnd hB1

theorem chain_getLast_lt (R : PyVal → PyVal → Prop) (f : PyVal → Nat)
    (hf : ∀ x y, R x y → f y < f x) :
    ∀ (c0 : PyVal) (cs : List PyVal), List.Chain R c0 cs → cs ≠ [] →
      ∀ h : c0 :: cs ≠ [], f ((c0 :: cs).getLast h) < f c0 := by
  intro c0 cs
  induction cs generalizing c0 with
  | nil => intro _ hne; exact absurd rfl hne
  | cons c1 cs' ih =>
    intro hch _ h
    obtain ⟨hR, hch'⟩ := List.chain_cons.mp hch
    cases cs' with
    | nil =>
      rw [List.getLast_cons (List.cons_ne_nil c1 [])]
      exact hf c0 c1 hR
    | cons c2 cs'' =>
      rw [List.getLast_cons (List.cons_ne_nil c1 (c2 :: cs''))]
      exact lt_trans (ih c1 hch' (List.cons_ne_nil c2 cs'') _) (hf c0 c1 hR)

theorem staticOrder_cycle_error (entries : List (PyVal × List PyVal))
    (hcyc : CycleIn entries) :
    staticOrder entries = .error (.cycleError "nodes are in a cycle") := by
  cases hso : staticOrder entries with
  | ok out =>
    exfalso
    obtain ⟨c0, cs, hne, hch, hlast⟩ := hcyc
    have hlt := chain_getLast_lt (fun a b => b ∈ predsOf entries a)
      (fun x => out.indexOf x)
      (fun x y hxy => staticOrder_index_lt entries out x y hso hxy)
      c0 cs hch hne (List.cons_ne_nil c0 cs)
    rw [hlast] at hlt
    exact lt_irrefl _ hlt
  | error e =>
    simp only [staticOrder] at hso
    split_ifs at hso
    exact hso.symm

/-! ### Unfolding lemmas for `getSteps` and `Pipeline.run` -/

theorem getSteps_ok_inv (coll : StepsColl) (order : List PyVal)
    (h : getSteps coll = .ok order) :
    computeOrder coll = .ok order ∧ coll.elems.all PyVal.isStep = true := by
  unfold getSteps at h
  cases hco : computeOrder coll with
  | error e =>
    rw [hco] at h
    exact absurd h (by simp)
  | ok ord =>
    rw [hco] at h
    simp only at h
    split_ifs at h with hall
    rw [Except.ok.injEq] at h
    subst h
    exact ⟨rfl, hall⟩

theorem computeOrder_pydict_ok (entries : List (PyVal × List PyVal))
    (order : List PyVal) (h : computeOrder (.pydict entries) = .ok order) :
    ∃ out, staticOrder entries = .ok out ∧ order = out.reverse := by
  simp only [computeOrder] at h
  cases hso : staticOrder entries with
  | error e =>
    rw [hso] at h
    exact absurd h (by simp [Except.map])
  | ok out =>
    rw [hso] at h
    simp only [Except.map] at h
    rw [Except.ok.injEq] at h
    exact ⟨out, rfl, h.symm⟩

theorem runSteps_all_ok (order : List PyVal) :
    ∀ tr : List Nat,
      (∀ v ∈ order, ∃ s, v = PyVal.step s ∧ s.outcome = none) →
      runSteps order tr = (.ok (), tr ++ order.map PyVal.stepId) := by
  induction order with
  | nil => intro tr _; simp [runSteps]
  | cons v rest ih =>
    intro tr h
    obtain ⟨s, rfl, hout⟩ := h _ (List.mem_cons_self _ _)
    simp only [runSteps, Step.run, hout]
    rw [ih _ (fun w hw => h w (List.mem_cons_of_mem _ hw))]
    simp [PyVal.stepId]

theorem truthy_of_elems_ne_nil (coll : StepsColl) (h : coll.elems ≠ []) :
    coll.pyTruthy = true := by
  cases coll with
  | pylist xs =>
    simp only [StepsColl.elems] at h
    simp [StepsColl.pyTruthy, h]
  | pydict es =>
    simp only [StepsColl.elems] at h
    have : es ≠ [] := by
      intro hnil
      rw [hnil] at h
      simp at h
    simp [StepsColl.pyTruthy, this]
  | otherVal t =>
    simp [StepsColl.elems] at h

theorem run_ok_trace (p : Pipeline) (order : List PyVal)
    (htr : p.stepsColl.pyTruthy = true)
    (hget : getSteps p.stepsColl = .ok order)
    (hall : ∀ v ∈ order, ∃ s, v = PyVal.step s ∧ s.outcome = none) :
    p.run = (.ok (), order.map PyVal.stepId) := by
  unfold Pipeline.run
  rw [htr, hget]
  simp only [Bool.not_true, Bool.false_eq_true, if_false]
  rw [runSteps_all_ok order [] hall]
  simp

theorem run_getSteps_error (p : Pipeline) (e : PyExc)
    (htr : p.stepsColl.pyTruthy = true)
    (hget : getSteps p.stepsColl = .error e) :
    p.run = (.error e, []) := by
  unfold Pipeline.run
  rw [htr, hget]
  simp

theorem cycleIn_entries_ne_nil (entries : List (PyVal × List PyVal))
    (h : CycleIn entries) : entries ≠ [] := by
  obtain ⟨c0, cs, hne, hch, _⟩ := h
  cases cs with
  | nil => exact absurd rfl hne
  | cons c1 cs' =>
    obtain ⟨hR, _⟩ := List.chain_cons.mp hch
    obtain ⟨e, he, _, _⟩ := (mem_predsOf entries c0 c1).mp hR
    intro hnil
    rw [hnil] at he
    simp at he

/-! ### Claim theorems -/

/-- C2: for the pipeline whose factory returns the mapping
`{step_five: [step_two], step_two: [step_three],
step_three: [step_four, step_one], step_four: [step_one]}`, the resolved
execution order computed by `_get_steps` is exactly `step_five, step_two,
step_three, step_four, step_one`, in that order. -/
theorem C2_dict_resolved_order :
    getSteps (.pydict dictEntries) =
      .ok [stepFive, stepTwo, stepThree, stepFour, stepOne] := by rfl

/-- C4 counterexample: applying the pipeline decorator to a non-callable
(a `str`) succeeds — no `InvalidArgument` error is raised at decoration
time, contrary to the claim; the `TypeError` (reporting the runtime type)
is raised only when the returned wrapper is invoked. -/
theorem C4_counterexample :
    pipelineDecorator testMeta (.notCallable "str") = .ok (.notCallable "str") ∧
    pipelineWrapperCall testMeta (.notCallable "str") =
      .error (.typeError
        ("The pipeline decorator only accepts functions. Passed str")) :=
  ⟨rfl, rfl⟩

/-- C4 (amended): supplying a non-invocable argument to the pipeline
decorator raises nothing at decoration time; the `InvalidArgument`
(`TypeError`) whose message reports the argument's runtime type is raised
when the wrapped factory wrapper is invoked (i.e. at pipeline-construction
time), still before the factory itself is ever invoked. -/
theorem C4_wrapper_call_type_error (m : PipelineMeta) (t : String) :
    pipelineDecorator m (.notCallable t) = .ok (.notCallable t) ∧
    pipelineWrapperCall m (.notCallable t) =
      .error (.typeError
        ("The pipeline decorator only accepts functions. Passed " ++ t)) :=
  ⟨rfl, rfl⟩

/-- C6: a pipeline whose materialized step collection is empty (an empty
list or an empty dict) fails immediately with a bare `Exception` naming
the pipeline, and no step's work item is invoked (empty trace). -/
theorem C6_empty_pipeline (p : Pipeline)
    (h : p.stepsColl = .pylist [] ∨ p.stepsColl = .pydict []) :
    p.run =
      (.error (.exc ("Pipeline " ++ p.name ++ " has no steps to run.")), []) := by
  unfold Pipeline.run
  rcases h with h | h <;> rw [h] <;> rfl

/-- C6 witness: the empty-factory test pipeline. -/
theorem C6_empty_pipeline_witness :
    emptyPipeline.run =
      (.error (.exc "Pipeline test_pipeline has no steps to run."), []) :=
  C6_empty_pipeline emptyPipeline (Or.inl rfl)

/-- C7: in a 3-step sequential pipeline whose middle step's work item
raises `e`, `run` invokes the first step's work item exactly once, never
invokes the third step's work item, and re-raises `e` unchanged. -/
theorem C7_middle_failure (p : Pipeline) (s1 s2 s3 : Step) (e : PyExc)
    (hcoll : p.stepsColl = .pylist [.step s1, .step s2, .step s3])
    (h1 : s1.outcome = none) (h2 : s2.outcome = some e)
    (h12 : s1.id ≠ s2.id) (h31 : s3.id ≠ s1.id) (h32 : s3.id ≠ s2.id) :
    p.run = (.error e, [s1.id, s2.id]) ∧
    (p.run).2.count s1.id = 1 ∧ s3.id ∉ (p.run).2 := by
  have hrun : p.run = (.error e, [s1.id, s2.id]) := by
    unfold Pipeline.run
    rw [hcoll]
    have hget : getSteps (.pylist [.step s1, .step s2, .step s3]) =
        .ok [.step s1, .step s2, .step s3] := rfl
    rw [hget]
    simp only [StepsColl.pyTruthy, List.isEmpty_cons, Bool.not_false,
      Bool.false_eq_true, if_false, runSteps, Step.run, h1, h2]
    rfl
  refine ⟨hrun, ?_, ?_⟩
  · rw [hrun]
    have h21 : s2.id ≠ s1.id := fun h => h12 h.symm
    simp [List.count_cons, h21]
  · rw [hrun]
    simp only [List.mem_cons, List.mem_singleton]
    rintro (h | h | h)
    · exact h31 h
    · exact h32 h
    · simp at h

/-- C7 witness: the three-step test pipeline whose middle mock raises
`Exception("Something went wrong")`. -/
theorem C7_middle_failure_witness :
    failMidPipeline.run = (.error (.exc "Something went wrong"), [1, 2]) ∧
    (failMidPipeline.run).2.count 1 = 1 ∧ (3 : Nat) ∉ (failMidPipeline.run).2 := by
  have h := C7_middle_failure failMidPipeline
    (mkStep 1 "step_one") (mkFailStep 2 "step_two" (.exc "Something went wrong"))
    (mkStep 3 "step_three") (.exc "Something went wrong")
    rfl rfl rfl (by decide) (by decide) (by decide)
  exact h

/-- C8: the step-collection factory backing the `steps` cached property is
invoked exactly once by the first access and never again: after any
positive number of accesses the cache holds the factory's result, the call
counter is 1, and a further access returns the cached value. -/
theorem C8_factory_called_once (f : StepsColl) (n : Nat) (hn : 1 ≤ n) :
    accessIter f n PipelineCell.init =
      { stepsCache := some f, funcCalls := 1 } ∧
    (stepsAccess f (accessIter f n PipelineCell.init)).1 = f := by
  have hfix : ∀ (m : Nat) (c : Nat),
      accessIter f m { stepsCache := some f, funcCalls := c } =
        { stepsCache := some f, funcCalls := c } := by
    intro m
    induction m with
    | zero => intro c; rfl
    | succ k ih => intro c; simpa [accessIter, stepsAccess] using ih c
  obtain ⟨m, rfl⟩ : ∃ m, n = m + 1 := ⟨n - 1, by omega⟩
  have hstep : accessIter f (m + 1) PipelineCell.init =
      accessIter f m { stepsCache := some f, funcCalls := 1 } := rfl
  rw [hstep, hfix]
  exact ⟨rfl, rfl⟩

/-- C8 witness: three consecutive accesses with a concrete factory. -/
theorem C8_factory_called_once_witness :
    accessIter (.pylist []) 3 PipelineCell.init =
      { stepsCache := some (.pylist []), funcCalls := 1 } ∧
    (stepsAccess (.pylist []) (accessIter (.pylist []) 3 PipelineCell.init)).1 =
      .pylist [] :=
  C8_factory_called_once (.pylist []) 3 (by omega)

/-- C3: whenever the execution order is computed successfully (either
branch of `_get_steps`) and some element of the original step collection
(a list's items; a dict's keys, which is what Python iteration over the
collection yields) is not a `Step` instance, `run` fails with the
`TypeError` suggesting the step decorator, before any step's work item is
invoked (empty trace). -/
theorem C3_invalid_step_validation (p : Pipeline) (ord : List PyVal)
    (hord : computeOrder p.stepsColl = .ok ord)
    (hbad : ∃ x ∈ p.stepsColl.elems, x.isStep = false) :
    p.run = (.error (.typeError invalidStepMsg), []) := by
  have hallf : p.stepsColl.elems.all PyVal.isStep = false := by
    rw [List.all_eq_false]
    obtain ⟨x, hx, hfx⟩ := hbad
    exact ⟨x, hx, by simp [hfx]⟩
  have hne : p.stepsColl.elems ≠ [] := by
    obtain ⟨x, hx, _⟩ := hbad
    intro hnil
    rw [hnil] at hx
    simp at hx
  have htr := truthy_of_elems_ne_nil _ hne
  have hget : getSteps p.stepsColl = .error (.typeError invalidStepMsg) := by
    unfold getSteps
    rw [hord]
    simp only [hallf, Bool.false_eq_true, if_false]
  exact run_getSteps_error p _ htr hget

/-- C3 witness: the test pipeline whose factory returns `["step_one"]`. -/
theorem C3_invalid_step_validation_witness :
    invalidPipeline.run = (.error (.typeError invalidStepMsg), []) :=
  C3_invalid_step_validation invalidPipeline [.other "step_one"] rfl
    ⟨.other "step_one", by decide, rfl⟩

/-- C5: a pipeline whose step collection is a dependency mapping
containing a cycle fails with the `CycleError` (an exception type distinct
from the `TypeError`s and the bare `Exception` of the other failure modes)
and invokes no step's work item (empty trace). -/
theorem C5_cyclic_dependency (p : Pipeline) (entries : List (PyVal × List PyVal))
    (hcoll : p.stepsColl = .pydict entries) (hcyc : CycleIn entries) :
    p.run = (.error (.cycleError "nodes are in a cycle"), []) := by
  have hso := staticOrder_cycle_error entries hcyc
  have hne := cycleIn_entries_ne_nil entries hcyc
  have htr : p.stepsColl.pyTruthy = true := by
    rw [hcoll]
    simp [StepsColl.pyTruthy, hne]
  have hget : getSteps p.stepsColl = .error (.cycleError "nodes are in a cycle") := by
    rw [hcoll]
    unfold getSteps
    have hco : computeOrder (.pydict entries) =
        .error (.cycleError "nodes are in a cycle") := by
      simp only [computeOrder, hso, Except.map]
    rw [hco]
  exact run_getSteps_error p _ htr hget

/-- C5 witness: the two-step mapping in which each step depends on the
other. -/
theorem C5_cyclic_dependency_witness :
    cyclicPipeline.run = (.error (.cycleError "nodes are in a cycle"), []) := by
  apply C5_cyclic_dependency cyclicPipeline cyclicEntries rfl
  refine ⟨stepOne, [stepTwo, stepOne], by simp, ?_, by rfl⟩
  exact List.Chain.cons (by decide) (List.Chain.cons (by decide) List.Chain.nil)

/-- C9 counterexample: the claim as stated fails when a work item raises —
in the two-step sequential pipeline whose first step's work item raises,
the second step's work item is invoked zero times, not exactly once. -/
theorem C9_counterexample :
    failFirstPipeline.run = (.error (.exc "boom"), [1]) ∧
    ¬ ((failFirstPipeline.run).2.count 2 = 1) :=
  ⟨rfl, by decide⟩

/-- C9 (amended): for a pipeline built from a non-empty sequence of steps
all of whose work items succeed, `run` returns normally and its invocation
trace is exactly the steps' work items in the sequence's declared order
(hence each step's work item is invoked exactly once, with no
reordering). -/
theorem C9_sequential_order (p : Pipeline) (xs : List Step)
    (hcoll : p.stepsColl = .pylist (xs.map PyVal.step))
    (hsucc : ∀ s ∈ xs, s.outcome = none)
    (hne : xs ≠ []) :
    p.run = (.ok (), xs.map Step.id) := by
  have hxsne : (xs.map PyVal.step) ≠ [] := by
    simpa using hne
  have htr : p.stepsColl.pyTruthy = true := by
    rw [hcoll]
    simp [StepsColl.pyTruthy, hxsne]
  have hget : getSteps p.stepsColl = .ok (xs.map PyVal.step) := by
    rw [hcoll]
    unfold getSteps
    have hco : computeOrder (.pylist (xs.map PyVal.step)) =
        .ok (xs.map PyVal.step) := rfl
    rw [hco]
    have hall : (StepsColl.pylist (xs.map PyVal.step)).elems.all PyVal.isStep = true := by
      rw [List.all_eq_true]
      intro v hv
      simp only [StepsColl.elems] at hv
      obtain ⟨s, _, rfl⟩ := List.mem_map.mp hv
      rfl
    rw [hall]
    simp
  have hrun := run_ok_trace p _ htr hget (by
    intro v hv
    obtain ⟨s, hs, rfl⟩ := List.mem_map.mp hv
    exact ⟨s, rfl, hsucc s hs⟩)
  rw [hrun, List.map_map]
  rfl

/-- C9 witness: the two-step succeeding sequential pipeline runs its work
items as 1 then 2. -/
theorem C9_sequential_order_witness :
    seqPipeline.run = (.ok (), [1, 2]) := by
  have h := C9_sequential_order seqPipeline seqSteps rfl
    (by intro s hs; rcases List.mem_cons.mp hs with rfl | hs
        · rfl
        · rcases List.mem_cons.mp hs with rfl | hs
          · rfl
          · simp at hs)
    (by simp [seqSteps])
  exact h

/-- C10: whenever `_get_steps` succeeds on a dependency mapping, every
step that appears inside some value collection — even one that is never a
key, or one listed under several keys — appears in the resolved execution
order exactly once, and so does every key. -/
theorem C10_every_node_once (entries : List (PyVal × List PyVal))
    (order : List PyVal) (hok : getSteps (.pydict entries) = .ok order) :
    (∀ B, (∃ e ∈ entries, B ∈ e.2) → order.count B = 1) ∧
    (∀ A, (∃ e ∈ entries, A = e.1) → order.count A = 1) := by
  obtain ⟨hco, _⟩ := getSteps_ok_inv _ _ hok
  obtain ⟨out, hso, hrev⟩ := computeOrder_pydict_ok _ _ hco
  have hperm := staticOrder_perm entries out hso
  have hcount : ∀ v ∈ nodesOf entries, order.count v = 1 := by
    intro v hv
    rw [hrev, List.count_reverse, hperm.count_eq]
    exact List.count_eq_one_of_mem (nodesOf_nodup entries) hv
  constructor
  · intro B hB
    obtain ⟨e, he, hBe⟩ := hB
    exact hcount B ((mem_nodesOf entries B).mpr ⟨e, he, Or.inr hBe⟩)
  · intro A hA
    obtain ⟨e, he, hAe⟩ := hA
    exact hcount A ((mem_nodesOf entries A).mpr ⟨e, he, Or.inl hAe⟩)

/-- C10 witness: in `sharedDepEntries`, `step_four` (listed under two
different keys, never a key itself) and `step_five` (value-only) each
appear exactly once in the resolved order. -/
theorem C10_every_node_once_witness :
    ([stepOne, stepTwo, stepFive, stepFour].count stepFour = 1) ∧
    ([stepOne, stepTwo, stepFive, stepFour].count stepFive = 1) := by
  have h := C10_every_node_once sharedDepEntries
    [stepOne, stepTwo, stepFive, stepFour] (by rfl)
  exact ⟨h.1 stepFour (by decide), h.1 stepFive (by decide)⟩

/-- C1 counterexample: in the pipeline of the one-edge mapping
`{step_one: [step_two]}` — where `step_two` appears in `step_one`'s value
collection — the work item of `step_one` is invoked FIRST: the trace is
`[1, 2]`, so `step_two`'s work item is not invoked strictly before
`step_one`'s, contradicting the claim. -/
theorem C1_counterexample :
    stepTwo ∈ predsOf edgeEntries stepOne ∧
    edgePipeline.run = (.ok (), [1, 2]) ∧
    ¬ ((edgePipeline.run).2.indexOf stepTwo.stepId <
        (edgePipeline.run).2.indexOf stepOne.stepId) :=
  ⟨by decide, rfl, by decide⟩

/-- C1 (amended): for a pipeline whose step collection is a dependency
mapping, whenever `run` executes all work items successfully, then for
every pair (A, B) with B in A's value collection, A's work item is invoked
strictly BEFORE B's work item (the mapping's keys run before the steps
they list, which are their dependents, not their prerequisites). -/
theorem C1_key_before_value (p : Pipeline) (entries : List (PyVal × List PyVal))
    (order : List PyVal) (A B : PyVal)
    (hcoll : p.stepsColl = .pydict entries)
    (hok : getSteps p.stepsColl = .ok order)
    (hall : ∀ v ∈ order, ∃ s, v = PyVal.step s ∧ s.outcome = none)
    (hinj : ∀ v ∈ order, ∀ w ∈ order, PyVal.stepId v = PyVal.stepId w → v = w)
    (hedge : B ∈ predsOf entries A) :
    (p.run).2.indexOf (PyVal.stepId A) < (p.run).2.indexOf (PyVal.stepId B) := by
  rw [hcoll] at hok
  obtain ⟨hco, _⟩ := getSteps_ok_inv _ _ hok
  obtain ⟨out, hso, hrev⟩ := computeOrder_pydict_ok _ _ hco
  have hne : entries ≠ [] := by
    obtain ⟨e, he, _, _⟩ := (mem_predsOf entries A B).mp hedge
    intro hnil
    rw [hnil] at he
    simp at he
  have htr : p.stepsColl.pyTruthy = true := by
    rw [hcoll]
    simp [StepsColl.pyTruthy, hne]
  have hrun := run_ok_trace p order htr (by rw [hcoll]; exact hok) hall
  obtain ⟨⟨hnd, _, hhist⟩, _⟩ := staticOrder_good entries out hso
  have hperm := staticOrder_perm entries out hso
  have hAout : A ∈ out := hperm.mem_iff.mpr (edge_mem_nodesOf entries A B hedge).1
  obtain ⟨l1, l2, hsplit⟩ := List.append_of_mem hAout
  have hB1 : B ∈ l1 := hhist l1 A l2 hsplit B hedge
  have horder : order = l2.reverse ++ A :: l1.reverse := by
    rw [hrev, hsplit]
    simp
  have hndorder : order.Nodup := by
    rw [hrev]
    exact List.nodup_reverse.mpr hnd
  have hndtrace : (order.map PyVal.stepId).Nodup :=
    List.Nodup.map_on hinj hndorder
  rw [hrun]
  show (order.map PyVal.stepId).indexOf (PyVal.stepId A) <
    (order.map PyVal.stepId).indexOf (PyVal.stepId B)
  rw [horder] at hndtrace ⊢
  rw [List.map_append, List.map_cons] at hndtrace ⊢
  apply indexOf_mem_right_lt _ _ _ _ hndtrace
  exact List.mem_map.mpr ⟨B, by simp [hB1], rfl⟩

/-- C1 witness: in the one-edge pipeline, `step_one` (the key) is invoked
strictly before `step_two` (the value). -/
theorem C1_key_before_value_witness :
    (edgePipeline.run).2.indexOf (PyVal.stepId stepOne) <
      (edgePipeline.run).2.indexOf (PyVal.stepId stepTwo) := by
  apply C1_key_before_value edgePipeline edgeEntries [stepOne, stepTwo]
    stepOne stepTwo rfl (by rfl)
  · intro v hv
    rcases List.mem_cons.mp hv with rfl | hv
    · exact ⟨mkStep 1 "step_one", rfl, rfl⟩
    rcases List.mem_cons.mp hv with rfl | hv
    · exact ⟨mkStep 2 "step_two", rfl, rfl⟩
    · simp at hv
  · decide
  · decide

end TinyPipeline
